import Mathlib

/-!
Verification of the firecrawl/html-to-markdown rule engine and plugins.

We give a shallow embedding of the Go sources:
  * `markdown.go` — the `AdvancedResult` accumulator (`appendBlock`,
    `accumulate`), the precedence-ordered rule application (`applyRules`),
    the recursive walker (`selecToMD`), the root entry point
    (`applyRulesToSelection`) and the `ruleKeep` fallback;
  * `plugin/table.go` — `isHeadingRow`, `isFirstTbody` and the `table`
    replacement that synthesizes an empty header row;
  * the RobustCodeBlock plugin — `collect` (code-text extraction),
    `isGutter`, and the inline `code` rule.

HTML trees are modelled as rose trees (`HNode`); goquery selections are
lists of nodes; goquery navigation that relies on pointer identity
(first-element-child checks, sibling counts) is modelled positionally,
an index into the parent's child list standing for the node's identity.
-/

namespace HtmlToMarkdown

/-- An HTML node: a text node or an element with tag name, attributes
(key/value pairs) and ordered children.  Mirrors the relevant parts of
`golang.org/x/net/html.Node` (`TextNode` / `ElementNode`). -/
inductive HNode : Type where
  | text (data : String)
  | elem (tag : String) (attrs : List (String × String)) (children : List HNode)

/-- goquery `NodeName`: the tag name for an element, `"#text"` for a text
node. -/
def nodeNameOf : HNode → String
  | .text _ => "#text"
  | .elem tag _ _ => tag

/-- The children of a node (a text node has none). -/
def childrenOf : HNode → List HNode
  | .text _ => []
  | .elem _ _ cs => cs

/-- Whether a node is an element node. -/
def isElem : HNode → Bool
  | .text _ => false
  | .elem _ _ _ => true

/-- goquery `Children()`: the element children of a node, in order. -/
def elemChildren (n : HNode) : List HNode :=
  (childrenOf n).filter isElem

/-- `AdvancedResult` from `markdown.go`: the Header/Markdown/Footer
accumulator threaded through the walk. -/
structure AdvancedResult where
  Header : String := ""
  Markdown : String := ""
  Footer : String := ""
deriving DecidableEq, Repr, Inhabited

/-- Go `strings.HasSuffix s pat`: `pat` is a suffix of `s`. -/
def strEndsWith (s pat : String) : Bool := decide (pat.toList <:+ s.toList)

/-- `appendBlock` from `markdown.go`: append `addition` to `current`,
ensuring a newline ends `current` first and a newline ends the result. -/
def appendBlock (current addition : String) : String :=
  if addition = "" then current
  else
    let current1 := if current ≠ "" ∧ ¬ strEndsWith current "\n" then current ++ "\n" else current
    let current2 := current1 ++ addition
    if ¬ strEndsWith addition "\n" then current2 ++ "\n" else current2

/-- `AdvancedResult.accumulate` from `markdown.go`: merge the other
result's Header and Footer via `appendBlock`; Markdown is untouched. -/
def accumulate (result other : AdvancedResult) : AdvancedResult :=
  { result with
    Header := appendBlock result.Header other.Header
    Footer := appendBlock result.Footer other.Footer }

end HtmlToMarkdown

namespace HtmlToMarkdown

/-- A goquery selection: the list of matched nodes. -/
abbrev Sel := List HNode

/-- A rule function as stored in the registry: given the rendered child
content and the matched selection it returns an `AdvancedResult` and a
skip flag (`true` = this rule defers to the next one).  The `Options`
argument of the Go signature is threaded through unchanged by the engine,
so rule functions are modelled already applied to it. -/
abbrev RuleFunc := String → Sel → AdvancedResult × Bool

/-- The registry state of a `Converter`: for each tag name the ordered
list of registered rule functions (registration order, the most recently
registered rule last), and the set of removed tag names. -/
structure Converter where
  rules : String → List RuleFunc
  remove : String → Bool

/-- Modelled from the spec: the rule lookup `getRuleFuncs` is not among
the provided sources (only its caller `applyRules` is).  Per the spec,
`resolve(tagName)` returns the tag's replacement list or a marker meaning
"removed"; the removal check comes before any rule lookup. -/
def getRuleFuncs (conv : Converter) (tag : String) : Option (List RuleFunc) :=
  if conv.remove tag then none else some (conv.rules tag)

/-- The loop body of `applyRules` (`markdown.go`): try the given rule
functions in order; the first one that does not skip wins; if every rule
skips, pass the rendered content through unchanged with `skip = true`. -/
def applyRulesLoop (markdown : String) (selec : Sel) : List RuleFunc → AdvancedResult × Bool
  | [] => ({ Markdown := markdown }, true)
  | r :: rest =>
    let pr := r markdown selec
    if pr.2 then applyRulesLoop markdown selec rest else (pr.1, false)

/-- `applyRules` from `markdown.go`: look up the tag's rules (nil means
the tag is in the remove map — return an empty result), then iterate the
list from the most recently registered rule backwards. -/
def applyRules (conv : Converter) (nodeName markdown : String) (selec : Sel) :
    AdvancedResult × Bool :=
  match getRuleFuncs conv nodeName with
  | none => ({}, false)
  | some rules => applyRulesLoop markdown selec rules.reverse

mutual

/-- `selecToMD` from `markdown.go`, on a single node: walk the node's
contents (all child nodes, text nodes included), building the Markdown by
plain concatenation and merging Header/Footer via `accumulate`. -/
def selecToMD (conv : Converter) : HNode → AdvancedResult
  | .text _ => {}
  | .elem _ _ cs =>
    let pr := walkList conv cs {} ""
    { pr.1 with Markdown := pr.2 }

/-- The body of `selecToMD`'s `Each` loop: fold over the child nodes in
document order, skipping removed tags, recursively rendering each child,
applying the rules to it, and appending the chosen fragment to the
builder. -/
def walkList (conv : Converter) : List HNode → AdvancedResult → String → AdvancedResult × String
  | [], acc, b => (acc, b)
  | s :: rest, acc, b =>
    let nodeName := nodeNameOf s
    if conv.remove nodeName then
      walkList conv rest acc b
    else
      let content := selecToMD conv s
      let acc1 := accumulate acc content
      let pr := applyRules conv nodeName content.Markdown [s]
      let acc2 := accumulate acc1 pr.1
      let b2 := b ++ (if pr.2 = false then pr.1.Markdown else content.Markdown)
      walkList conv rest acc2 b2

end

/-- goquery `Contents()` of a selection: the concatenation of the child
node lists of every matched node. -/
def selContents (nodes : Sel) : List HNode :=
  nodes.flatMap childrenOf

/-- `selecToMD` on a whole selection (its `Contents()` is walked). -/
def selecToMDSel (conv : Converter) (nodes : Sel) : AdvancedResult :=
  let pr := walkList conv (selContents nodes) {} ""
  { pr.1 with Markdown := pr.2 }

/-- goquery `NodeName` of a selection: the name of its first node, `""`
for an empty selection. -/
def selNodeName : Sel → String
  | [] => ""
  | n :: _ => nodeNameOf n

/-- `applyRulesToSelection` from `markdown.go`: nil or empty selections
yield the empty result; otherwise walk the selection's contents, keep its
Header/Footer, and apply the rules to the selection's own node name. -/
def applyRulesToSelection (conv : Converter) (selec : Option Sel) : AdvancedResult :=
  match selec with
  | none => {}
  | some nodes =>
    if nodes.length = 0 then {}
    else
      let content := selecToMDSel conv nodes
      let result : AdvancedResult := { Header := content.Header, Footer := content.Footer }
      let pr := applyRules conv (selNodeName nodes) content.Markdown nodes
      let result1 := accumulate result pr.1
      if pr.2 = false then { result1 with Markdown := pr.1.Markdown }
      else { result1 with Markdown := content.Markdown }

/-- Go `strings.Contains s pat`: `pat` occurs as a contiguous substring
of `s`. -/
def strContains (s pat : String) : Bool := decide (pat.toList <:+: s.toList)

/-- If every rule in the list skips, the loop passes the content through
unchanged. -/
lemma applyRulesLoop_all_skip (markdown : String) (selec : Sel) (l : List RuleFunc)
    (h : ∀ r ∈ l, (r markdown selec).2 = true) :
    applyRulesLoop markdown selec l = ({ Markdown := markdown }, true) := by
  induction l with
  | nil => rfl
  | cons r rest ih =>
    have hr := h r (List.mem_cons_self r rest)
    simp only [applyRulesLoop, hr, if_pos]
    exact ih fun p hp => h p (List.mem_cons_of_mem r hp)

/-- The loop returns the output of the first rule that does not skip. -/
lemma applyRulesLoop_first_hit (markdown : String) (selec : Sel)
    (l₁ l₂ : List RuleFunc) (r : RuleFunc)
    (h₁ : ∀ p ∈ l₁, (p markdown selec).2 = true) (hr : (r markdown selec).2 = false) :
    applyRulesLoop markdown selec (l₁ ++ r :: l₂) = ((r markdown selec).1, false) := by
  induction l₁ with
  | nil => simp only [List.nil_append, applyRulesLoop, hr]; rfl
  | cons p rest ih =>
    have hp := h₁ p (List.mem_cons_self p rest)
    simp only [List.cons_append, applyRulesLoop, hp, if_pos]
    exact ih fun q hq => h₁ q (List.mem_cons_of_mem p hq)

/-- The loop reports `skip = true` exactly when every rule in the list
skips. -/
lemma applyRulesLoop_skip_iff (markdown : String) (selec : Sel) (l : List RuleFunc) :
    (applyRulesLoop markdown selec l).2 = true ↔
      ∀ r ∈ l, (r markdown selec).2 = true := by
  induction l with
  | nil => simp [applyRulesLoop]
  | cons r rest ih =>
    simp only [applyRulesLoop]
    by_cases h : (r markdown selec).2 = true
    · simp [h, ih]
    · have h' : (r markdown selec).2 = false := by
        cases hb : (r markdown selec).2 with
        | false => rfl
        | true => exact absurd hb h
      simp [h']

/-- C1: for a tag that is not removed, `applyRules` tries the registered
replacements from most-recently-registered (the end of the registration
list) to least-recently-registered; the first one that does not skip wins
and its output is used; if every registered replacement skips, or none
are registered for that tag, the rendered child content is passed through
unchanged as the Markdown. -/
theorem applyRules_precedence_resolution (conv : Converter) (tag markdown : String)
    (selec : Sel) (hrem : conv.remove tag = false) :
    ((∀ r ∈ conv.rules tag, (r markdown selec).2 = true) →
      applyRules conv tag markdown selec = ({ Markdown := markdown }, true)) ∧
    (∀ l₁ r l₂, (conv.rules tag).reverse = l₁ ++ r :: l₂ →
      (∀ p ∈ l₁, (p markdown selec).2 = true) → (r markdown selec).2 = false →
      applyRules conv tag markdown selec = ((r markdown selec).1, false)) := by
  constructor
  · intro hall
    simp only [applyRules, getRuleFuncs, hrem, Bool.false_eq_true, if_false]
    exact applyRulesLoop_all_skip markdown selec _ fun r hr =>
      hall r (List.mem_reverse.mp hr)
  · intro l₁ r l₂ hsplit h₁ hr
    simp only [applyRules, getRuleFuncs, hrem, Bool.false_eq_true, if_false, hsplit]
    exact applyRulesLoop_first_hit markdown selec l₁ l₂ r h₁ hr

/-- A rule that always skips, for the witness converter. -/
def ruleSkipW : RuleFunc := fun _ _ => ({}, true)

/-- A rule that shouts the content (never skips). -/
def ruleShoutW : RuleFunc := fun content _ => ({ Markdown := content ++ "!" }, false)

/-- A converter with two rules for tag `x` (the skipping one registered
most recently) and no rules for tag `y`. -/
def convW : Converter :=
  { rules := fun t => if t = "x" then [ruleShoutW, ruleSkipW] else []
    remove := fun _ => false }

/-- Witness for C1: on tag `x` the most recent rule skips, so the earlier
rule's output is used; on tag `y` no rules are registered, so the content
passes through unchanged. -/
theorem applyRules_precedence_resolution_witness :
    applyRules convW "x" "hi" [] = ({ Markdown := "hi!" }, false) ∧
    applyRules convW "y" "hi" [] = ({ Markdown := "hi" }, true) := by
  constructor
  · exact (applyRules_precedence_resolution convW "x" "hi" [] rfl).2
      [ruleSkipW] ruleShoutW [] rfl (by intro p hp; simp at hp; subst hp; rfl) rfl
  · exact (applyRules_precedence_resolution convW "y" "hi" [] rfl).1
      (by intro r hr; simp [convW] at hr)

/-- C2 (counterexample): merging the non-empty fragments `"a"` and `"b"`
yields `"a\nb\n"`, which contains no blank line (no two consecutive
newline characters) — the fragments end up separated by a single newline,
not two; and merging onto an empty current does not keep the addition
unchanged: a trailing newline is appended. -/
theorem appendBlock_blank_line_counterexample :
    appendBlock "a" "b" = "a\nb\n" ∧
    strContains (appendBlock "a" "b") "\n\n" = false ∧
    appendBlock "" "b" = "b\n" ∧ appendBlock "" "b" ≠ "b" := by
  refine ⟨by decide, by decide, by decide, by decide⟩

/-- C2 (amended): an empty addition leaves the current fragment
unchanged; an empty current yields the addition plus a trailing newline
if it lacks one; and when both fragments are non-empty (and neither ends
with a newline) the result is the two fragments separated by exactly one
newline character, with one newline appended at the end. -/
theorem appendBlock_single_newline_separation (c a : String) :
    appendBlock c "" = c ∧
    (a ≠ "" → appendBlock "" a = a ++ (if strEndsWith a "\n" then "" else "\n")) ∧
    (c ≠ "" → a ≠ "" → strEndsWith c "\n" = false → strEndsWith a "\n" = false →
      appendBlock c a = c ++ "\n" ++ a ++ "\n") := by
  refine ⟨by simp [appendBlock], ?_, ?_⟩
  · intro ha
    cases h : strEndsWith a "\n" <;> simp [appendBlock, ha, h]
  · intro hc ha hc2 ha2
    simp [appendBlock, ha, hc, hc2, ha2, String.append_assoc]

/-- Witness for the amended C2 at the concrete fragments `"a"`, `"b"`. -/
theorem appendBlock_single_newline_separation_witness :
    appendBlock "a" "b" = "a" ++ "\n" ++ "b" ++ "\n" :=
  (appendBlock_single_newline_separation "a" "b").2.2
    (by decide) (by decide) (by decide) (by decide)

/-- Walking a child list containing a removed-tag node gives exactly the
same accumulator and builder as walking the list without it. -/
lemma walkList_removed (conv : Converter) (c : HNode)
    (h : conv.remove (nodeNameOf c) = true) (l₁ l₂ : List HNode)
    (acc : AdvancedResult) (b : String) :
    walkList conv (l₁ ++ c :: l₂) acc b = walkList conv (l₁ ++ l₂) acc b := by
  induction l₁ generalizing acc b with
  | nil => simp only [List.nil_append, walkList, h, if_pos]
  | cons s rest ih =>
    simp only [List.cons_append, walkList]
    split
    · exact ih _ _
    · exact ih _ _

/-- C3: a child whose tag name is in the converter's removed set is
skipped entirely by the walker — deleting it from the child list leaves
the rendered result (Header, Markdown and Footer alike) unchanged, so
nothing originating from the removed subtree reaches the output. -/
theorem selecToMD_removed_child_skipped (conv : Converter) (tag : String)
    (attrs : List (String × String)) (l₁ l₂ : List HNode) (c : HNode)
    (h : conv.remove (nodeNameOf c) = true) :
    selecToMD conv (.elem tag attrs (l₁ ++ c :: l₂)) =
      selecToMD conv (.elem tag attrs (l₁ ++ l₂)) := by
  simp only [selecToMD, walkList_removed conv c h l₁ l₂]

/-- A converter that removes `script` tags and has no rules. -/
def convR : Converter := { rules := fun _ => [], remove := fun t => t == "script" }

/-- Witness for C3: deleting a `script` subtree from a concrete document
does not change the conversion result. -/
theorem selecToMD_removed_child_skipped_witness :
    selecToMD convR (.elem "div" [] [.text "a", .elem "script" [] [.text "evil"]]) =
      selecToMD convR (.elem "div" [] [.text "a"]) :=
  selecToMD_removed_child_skipped convR "div" [] [.text "a"] []
    (.elem "script" [] [.text "evil"]) (by decide)

/-- Concatenation of a list of strings, in order, with no separators. -/
def concatAll : List String → String
  | [] => ""
  | x :: l => x ++ concatAll l

/-- The children of a node that survive the walker's removal check. -/
def keptChildren (conv : Converter) (cs : List HNode) : List HNode :=
  cs.filter (fun s => !(conv.remove (nodeNameOf s)))

/-- The Markdown fragment the walker appends for one (non-removed) child:
the rule result's Markdown if the rules did not all skip, otherwise the
child's own recursively rendered Markdown. -/
def chosenFragment (conv : Converter) (s : HNode) : String :=
  let content := selecToMD conv s
  let pr := applyRules conv (nodeNameOf s) content.Markdown [s]
  if pr.2 = false then pr.1.Markdown else content.Markdown

/-- Merging one child's Header contributions (first the recursive
content's Header, then the rule result's Header) into a running Header. -/
def mergedHeader (conv : Converter) (h : String) (s : HNode) : String :=
  appendBlock (appendBlock h (selecToMD conv s).Header)
    (applyRules conv (nodeNameOf s) (selecToMD conv s).Markdown [s]).1.Header

/-- Merging one child's Footer contributions into a running Footer. -/
def mergedFooter (conv : Converter) (h : String) (s : HNode) : String :=
  appendBlock (appendBlock h (selecToMD conv s).Footer)
    (applyRules conv (nodeNameOf s) (selecToMD conv s).Markdown [s]).1.Footer

/-- Closed form of the walker's fold: the builder is extended by the
plain concatenation of the kept children's chosen fragments, and the
Header/Footer are folded with `appendBlock` over the kept children. -/
lemma walkList_characterization (conv : Converter) (cs : List HNode)
    (acc : AdvancedResult) (b : String) :
    walkList conv cs acc b =
      ({ Header := (keptChildren conv cs).foldl (mergedHeader conv) acc.Header,
         Markdown := acc.Markdown,
         Footer := (keptChildren conv cs).foldl (mergedFooter conv) acc.Footer },
       b ++ concatAll ((keptChildren conv cs).map (chosenFragment conv))) := by
  induction cs generalizing acc b with
  | nil => simp [walkList, keptChildren, concatAll]
  | cons s rest ih =>
    by_cases h : conv.remove (nodeNameOf s) = true
    · simp only [walkList, h, if_pos, keptChildren, List.filter_cons, Bool.not_eq_true',
        Bool.not_true, ih]
      simp [h]
    · have h' : conv.remove (nodeNameOf s) = false := by
        cases hb : conv.remove (nodeNameOf s) with
        | false => rfl
        | true => exact absurd hb h
      simp only [walkList, h', Bool.false_eq_true, if_false, ih]
      simp [keptChildren, h', accumulate, mergedHeader, mergedFooter, chosenFragment,
        concatAll, String.append_assoc]

/-- C4: the rendering of any element decomposes child-wise — its Markdown
is the plain in-document-order concatenation (no separators) of each
non-removed child's chosen fragment (`chosenFragment`: the rule result's
Markdown unless every rule skipped, in which case the child's own
recursive Markdown), and its Header and Footer are the `appendBlock`
folds of the children's Header/Footer contributions; moreover, for a
non-removed child the skip flag is `true` exactly when every registered
rule for its tag skips. -/
theorem selecToMD_childwise_decomposition (conv : Converter) :
    (∀ (tag : String) (attrs : List (String × String)) (cs : List HNode),
      selecToMD conv (.elem tag attrs cs) =
        { Header := (keptChildren conv cs).foldl (mergedHeader conv) "",
          Markdown := concatAll ((keptChildren conv cs).map (chosenFragment conv)),
          Footer := (keptChildren conv cs).foldl (mergedFooter conv) "" }) ∧
    (∀ (s : HNode) (m : String), conv.remove (nodeNameOf s) = false →
      ((applyRules conv (nodeNameOf s) m [s]).2 = true ↔
        ∀ r ∈ conv.rules (nodeNameOf s), (r m [s]).2 = true)) := by
  constructor
  · intro tag attrs cs
    simp [selecToMD, walkList_characterization]
  · intro s m hrem
    simp only [applyRules, getRuleFuncs, hrem, Bool.false_eq_true, if_false]
    rw [applyRulesLoop_skip_iff]
    simp [List.mem_reverse]

/-- Witness for C4: at a concrete converter and node, the skip-flag
characterization applies (the tag `y` has no registered rules, so the
flag is `true`). -/
theorem selecToMD_childwise_decomposition_witness :
    (applyRules convW "y" "m" [.elem "y" [] []]).2 = true :=
  ((selecToMD_childwise_decomposition convW).2 (.elem "y" [] []) "m" rfl).mpr
    (fun r hr => by simp [convW, nodeNameOf] at hr)

/-- C10: applying the rule engine to a nil selection or to a selection
with an empty node list yields the empty accumulator, for every converter
whatsoever — in particular the result does not depend on the registered
rules or on the removed set, so no rule is invoked. -/
theorem applyRulesToSelection_empty_selection (conv : Converter) :
    applyRulesToSelection conv none = ({} : AdvancedResult) ∧
    applyRulesToSelection conv (some []) = ({} : AdvancedResult) := by
  exact ⟨rfl, rfl⟩

/-! ### The verbatim-keep rule (`ruleKeep`, `markdown.go`) -/

/-- `ruleKeep` from `markdown.go`, applied to the selection's first node
(`selec.Get(0)`): re-serialize the element back to HTML; if rendering
fails, log and return the empty string instead of failing.  The external
`html.Render` serializer is abstracted as a fallible function. -/
def ruleKeep (render : HNode → Except String String) (_content : String)
    (element : HNode) : String :=
  match render element with
  | .error _ => ""
  | .ok s => s

/-- `ruleKeep` packaged as a registry rule function (applied to the first
node of the selection the engine passes, which is always a singleton). -/
def keepRule (render : HNode → Except String String) : RuleFunc :=
  fun content sel =>
    match sel with
    | element :: _ => ({ Markdown := ruleKeep render content element }, false)
    | [] => ({ Markdown := "" }, false)

/-- A converter whose every tag uses the verbatim-keep rule. -/
def keepConv (render : HNode → Except String String) : Converter :=
  { rules := fun _ => [keepRule render], remove := fun _ => false }

/-- C9: when re-serializing an element fails, the verbatim-keep rule
returns empty content for that node instead of propagating an error: the
fragment the walker emits for the node is `""` and the walk (a total
function) continues over the rest of the document. -/
theorem ruleKeep_render_error_recovery (render : HNode → Except String String)
    (content : String) (element : HNode) (e : String)
    (h : render element = .error e) :
    ruleKeep render content element = "" ∧
    chosenFragment (keepConv render) element = "" := by
  constructor
  · simp [ruleKeep, h]
  · simp [chosenFragment, keepConv, applyRules, getRuleFuncs, applyRulesLoop,
      keepRule, ruleKeep, h]

/-- A serializer that always fails. -/
def renderFailW : HNode → Except String String := fun _ => .error "boom"

/-- Witness for C9 at a concrete node and failing serializer. -/
theorem ruleKeep_render_error_recovery_witness :
    ruleKeep renderFailW "c" (.text "t") = "" ∧
    chosenFragment (keepConv renderFailW) (.text "t") = "" :=
  ruleKeep_render_error_recovery renderFailW "c" (.text "t") "boom" rfl

/-! ### The Table plugin (`plugin/table.go`) -/

/-- The index of the first element child in a child list (the Go code
walks `FirstChild`/`NextSibling` until the first `ElementNode`).  Node
identity is positional: two nodes of a tree are the same node exactly
when they sit at the same position. -/
def firstElemIdx (cs : List HNode) : Option Nat := cs.findIdx? isElem

/-- The number of element siblings of the node at position `idx` (all
element entries of the list except the one at `idx`); goquery
`Siblings()` returns exactly these. -/
def countElemsExcept (siblings : List HNode) (idx : Nat) : Nat :=
  ((siblings.enum).filter (fun p => p.1 != idx && isElem p.2)).length

/-- `isFirstTbody` from `plugin/table.go`: the node at `idx` is a
`tbody` and its `Siblings()` selection is empty (it has no element
siblings). -/
def isFirstTbody (siblings : List HNode) (idx : Nat) : Bool :=
  match siblings[idx]? with
  | some s => nodeNameOf s == "tbody" && countElemsExcept siblings idx == 0
  | none => false

/-- `isHeadingRow` from `plugin/table.go`.  The row is located
positionally: `gp` is the parent's sibling list (the grandparent's
children), `pIdx` the parent's position in it, and `rIdx` the row's
position among the parent's children.  Mirrors the Go control flow:
parent a `thead` wins immediately; otherwise the parent must be a
`table` or a sole `tbody`, every element child of the row must be a
`th`, and the row must be the parent's first element child (compared by
node identity, skipping text nodes). -/
def isHeadingRow (gp : List HNode) (pIdx rIdx : Nat) : Bool :=
  match gp[pIdx]? with
  | none => false
  | some parent =>
    if nodeNameOf parent == "thead" then true
    else
      let isTableOrBody := nodeNameOf parent == "table" || isFirstTbody gp pIdx
      let pchildren := childrenOf parent
      let everyTH := match pchildren[rIdx]? with
        | some s => (elemChildren s).all (fun c => nodeNameOf c == "th")
        | none => true
      if !everyTH || !isTableOrBody then false
      else firstElemIdx pchildren == some rIdx

/-- The heading-row condition exactly as the claim states it: the parent
is a `thead`, or the row is the first element child of the `table` (or of
the first `tbody`, that tbody being itself the table's first element
child) and every one of the row's direct cell (`th`/`td`) children is a
`th`. -/
def isHeadingRowClaim (gp : List HNode) (pIdx rIdx : Nat) : Bool :=
  match gp[pIdx]? with
  | none => false
  | some parent =>
    let pchildren := childrenOf parent
    nodeNameOf parent == "thead" ||
    ((nodeNameOf parent == "table" ||
        (nodeNameOf parent == "tbody" && firstElemIdx gp == some pIdx)) &&
      (match pchildren[rIdx]? with
       | some s =>
         ((elemChildren s).filter
           (fun c => nodeNameOf c == "th" || nodeNameOf c == "td")).all
           (fun c => nodeNameOf c == "th")
       | none => false) &&
      (firstElemIdx pchildren == some rIdx))

/-- The heading-row condition as amended: the parent is a `thead`, or the
row is the first element child of the `table` — or of a `tbody` that has
no element siblings — and every direct element child of the row is a
`th`. -/
def isHeadingRowAmended (gp : List HNode) (pIdx rIdx : Nat) : Bool :=
  match gp[pIdx]? with
  | none => false
  | some parent =>
    let pchildren := childrenOf parent
    nodeNameOf parent == "thead" ||
    ((nodeNameOf parent == "table" ||
        (nodeNameOf parent == "tbody" && countElemsExcept gp pIdx == 0)) &&
      (match pchildren[rIdx]? with
       | some s => (elemChildren s).all (fun c => nodeNameOf c == "th")
       | none => true) &&
      (firstElemIdx pchildren == some rIdx))

/-- C5 (counterexample): in a table with two `tbody` sections, a
first-position all-`th` row inside the first `tbody` satisfies the
claim's condition (its `tbody` is the table's first element child), but
`isHeadingRow` rejects it because that `tbody` has an element sibling. -/
theorem isHeadingRow_counterexample :
    isHeadingRow
      [.elem "tbody" [] [.elem "tr" [] [.elem "th" [] []]],
       .elem "tbody" [] [.elem "tr" [] [.elem "td" [] []]]] 0 0 = false ∧
    isHeadingRowClaim
      [.elem "tbody" [] [.elem "tr" [] [.elem "th" [] []]],
       .elem "tbody" [] [.elem "tr" [] [.elem "td" [] []]]] 0 0 = true := by
  exact ⟨by decide, by decide⟩

/-- C5 (amended): `isHeadingRow` returns true exactly when the row's
parent is a `thead`, or when the parent is the `table` or a `tbody` with
no element siblings, every direct element child of the row is a `th`, and
the row is the parent's first element child (positional identity,
unaffected by sibling text nodes). -/
theorem isHeadingRow_characterization (gp : List HNode) (pIdx rIdx : Nat) :
    isHeadingRow gp pIdx rIdx = isHeadingRowAmended gp pIdx rIdx := by
  unfold isHeadingRow isHeadingRowAmended
  cases hp : gp[pIdx]? with
  | none => rfl
  | some parent =>
    cases h5 : (match (childrenOf parent)[rIdx]? with
        | some s => (elemChildren s).all (fun c => nodeNameOf c == "th")
        | none => true) <;>
      by_cases h1 : nodeNameOf parent = "thead" <;>
      by_cases h2 : nodeNameOf parent = "table" <;>
      by_cases h3 : nodeNameOf parent = "tbody" <;>
      by_cases h4 : countElemsExcept gp pIdx = 0 <;>
      by_cases h6 : firstElemIdx (childrenOf parent) = some rIdx <;>
      simp [isFirstTbody, hp, Bool.beq_eq_decide_eq, h1, h2, h3, h4, h5, h6]

mutual

/-- An element node followed by its element descendants in document
order (nothing for a text node). -/
def descSelf : HNode → List HNode
  | .text _ => []
  | .elem t a cs => .elem t a cs :: descList cs

/-- All element descendants, in document order, of the nodes of a child
list (each element is listed before its own descendants). -/
def descList : List HNode → List HNode
  | [] => []
  | n :: rest => descSelf n ++ descList rest

end

/-- goquery `Find(tag)` on a node: the element descendants carrying the
given tag name, in document order (the node itself is not searched). -/
def findTag (tag : String) (n : HNode) : List HNode :=
  (descList (childrenOf n)).filter (fun d => nodeNameOf d == tag)

/-- Go `strings.Repeat s n`: `s` repeated `n` times. -/
def strRepeat (s : String) : Nat → String
  | 0 => ""
  | k + 1 => s ++ strRepeat s k

/-- The `maxCount` update step of the `table` replacement: keep the
larger of the running maximum and the row's `Children()` count. -/
def cellMaxStep (m : Nat) (s : HNode) : Nat :=
  if (elemChildren s).length > m then (elemChildren s).length else m

/-- The `table` replacement of `plugin.Table` (`plugin/table.go`): when
the table has no `thead` and no `th` anywhere in its subtree, prepend a
synthesized empty header row and a divider row sized by the maximal
`Children()` count over all `tr` descendants; finally wrap the content in
blank lines. -/
def tableReplacement (content : String) (selec : HNode) : String :=
  let noHeader := (findTag "thead" selec).length == 0 && (findTag "th" selec).length == 0
  let content1 :=
    if noHeader then
      let maxCount := (findTag "tr" selec).foldl cellMaxStep 0
      let header := "|" ++ strRepeat "     |" maxCount
      let divider := "|" ++ strRepeat " --- |" maxCount
      header ++ "\n" ++ divider ++ content
    else content
  "\n\n" ++ content1 ++ "\n\n"

lemma foldl_cellMaxStep_init_le (l : List HNode) (init : Nat) :
    init ≤ l.foldl cellMaxStep init := by
  induction l generalizing init with
  | nil => simp
  | cons s rest ih =>
    refine le_trans ?_ (ih (cellMaxStep init s))
    unfold cellMaxStep
    split <;> omega

lemma foldl_cellMaxStep_mem_le (l : List HNode) (init : Nat) :
    ∀ r ∈ l, (elemChildren r).length ≤ l.foldl cellMaxStep init := by
  induction l generalizing init with
  | nil => simp
  | cons s rest ih =>
    intro r hr
    rcases List.mem_cons.mp hr with rfl | hr
    · simp only [List.foldl_cons]
      refine le_trans ?_ (foldl_cellMaxStep_init_le rest (cellMaxStep init r))
      unfold cellMaxStep
      split <;> omega
    · exact ih (cellMaxStep init s) r hr

lemma foldl_cellMaxStep_attained (l : List HNode) (init : Nat) :
    l.foldl cellMaxStep init = init ∨
      ∃ r ∈ l, (elemChildren r).length = l.foldl cellMaxStep init := by
  induction l generalizing init with
  | nil => simp
  | cons s rest ih =>
    simp only [List.foldl_cons]
    rcases ih (cellMaxStep init s) with h | ⟨r, hr, hre⟩
    · rw [h]
      unfold cellMaxStep
      split
      · right; exact ⟨s, List.mem_cons_self s rest, rfl⟩
      · left; rfl
    · right; exact ⟨r, List.mem_cons_of_mem s hr, hre⟩

/-- C6: for a table with no `thead` element and no `th` cell anywhere in
its subtree, the table rule prepends a synthesized empty header row and a
divider row whose column count `m` is the maximum `Children()` count over
all `tr` rows of the table (no row has more than `m` cells, and some row
attains `m` unless there are no cells at all). -/
theorem tableRule_header_synthesis (content : String) (t : HNode)
    (h1 : findTag "thead" t = []) (h2 : findTag "th" t = []) :
    ∃ m, tableReplacement content t =
        "\n\n" ++ ("|" ++ strRepeat "     |" m) ++ "\n" ++ ("|" ++ strRepeat " --- |" m)
          ++ content ++ "\n\n" ∧
      (∀ r ∈ findTag "tr" t, (elemChildren r).length ≤ m) ∧
      (m = 0 ∨ ∃ r ∈ findTag "tr" t, (elemChildren r).length = m) := by
  refine ⟨(findTag "tr" t).foldl cellMaxStep 0, ?_, ?_, ?_⟩
  · simp [tableReplacement, h1, h2, String.append_assoc]
  · exact foldl_cellMaxStep_mem_le (findTag "tr" t) 0
  · exact foldl_cellMaxStep_attained (findTag "tr" t) 0

/-- A header-less table with one 2-cell row and one 3-cell row. -/
def tableW : HNode :=
  .elem "table" []
    [.elem "tr" [] [.elem "td" [] [], .elem "td" [] []],
     .elem "tr" [] [.elem "td" [] [], .elem "td" [] [], .elem "td" [] []]]

/-- Witness for C6: the concrete header-less table with rows of 2 and 3
cells gets a 3-column synthesized header and divider. -/
theorem tableRule_header_synthesis_witness :
    (∃ m, tableReplacement "C" tableW =
        "\n\n" ++ ("|" ++ strRepeat "     |" m) ++ "\n" ++ ("|" ++ strRepeat " --- |" m)
          ++ "C" ++ "\n\n" ∧
      (∀ r ∈ findTag "tr" tableW, (elemChildren r).length ≤ m) ∧
      (m = 0 ∨ ∃ r ∈ findTag "tr" tableW, (elemChildren r).length = m)) ∧
    tableReplacement "C" tableW =
      "\n\n" ++ "|     |     |     |" ++ "\n" ++ "| --- | --- | --- |" ++ "C" ++ "\n\n" := by
  constructor
  · exact tableRule_header_synthesis "C" tableW rfl rfl
  · rfl

/-! ### The RobustCodeBlock plugin -/

/-- Go `strings.ToLower` (ASCII case folding, character by character). -/
def strToLower (s : String) : String := String.mk (s.toList.map Char.toLower)

/-- `isGutter` from the RobustCodeBlock plugin: the class attribute value
contains `"gutter"` or `"line-numbers"` as a case-insensitive substring. -/
def isGutter (cls : String) : Bool :=
  let lower := strToLower cls
  strContains lower "gutter" || strContains lower "line-numbers"

/-- Whether some attribute of the list is a `class` whose value
`isGutter` (the Go code scans `n.Attr` for such an entry). -/
def hasGutterAttr (attrs : List (String × String)) : Bool :=
  attrs.any (fun a => a.1 == "class" && isGutter a.2)

/-- The fixed block-ish tag set of `collect` (a trailing newline is
emitted after the children of these elements). -/
def blockish (name : String) : Bool :=
  name == "p" || name == "div" || name == "li" || name == "tr" || name == "table" ||
  name == "thead" || name == "tbody" || name == "tfoot" || name == "section" ||
  name == "article" || name == "blockquote" || name == "pre" || name == "h1" ||
  name == "h2" || name == "h3" || name == "h4" || name == "h5" || name == "h6"

mutual

/-- `collect` from the RobustCodeBlock plugin, on one node: text node
content is emitted verbatim; an element with a gutter/line-numbers class
is skipped entirely; `br` emits a newline; children are visited
depth-first; block-ish elements get one trailing newline. -/
def collectNode : HNode → String
  | .text d => d
  | .elem tag attrs cs =>
    let name := strToLower tag
    if name ≠ "" ∧ hasGutterAttr attrs = true then ""
    else
      (if name == "br" then "\n" else "") ++ collectList cs ++
        (if blockish name then "\n" else "")

/-- `collect` over a child list, in document order. -/
def collectList : List HNode → String
  | [] => ""
  | n :: rest => collectNode n ++ collectList rest

end

/-- Go `strings.ReplaceAll s "\r\n" "\n"`, the CRLF-to-LF collapse of the
inline-code rule, as a left-to-right scan over the characters. -/
def collapseCRLF : List Char → List Char
  | [] => []
  | '\r' :: '\n' :: rest => '\n' :: collapseCRLF rest
  | c :: rest => c :: collapseCRLF rest

/-- String version of `collapseCRLF`. -/
def strCollapseCRLF (s : String) : String := String.mk (collapseCRLF s.toList)

/-- Modelled from the spec: the shared helper `md.TrimTrailingSpaces`
applied by the inline-code rule is not among the provided sources; the
spec describes the inline-code pipeline as only collapsing CRLF to LF
before the fence is chosen, so the helper is modelled as the identity. -/
def trimTrailingSpaces (s : String) : String := s

/-- A run of `k` backticks. -/
def backticks (k : Nat) : String := String.mk (List.replicate k '`')

/-- The inline `code` rule of the RobustCodeBlock plugin: skip when some
ancestor is a `pre` (the `pre` rule handles it); otherwise collect the
text, collapse CRLF to LF, and wrap it in one, two or three backticks —
two if the text contains a backtick, three if it contains a double
backtick. -/
def codeRuleReplacement (ancestorTags : List String) (selec : HNode) : Option String :=
  if 0 < (ancestorTags.filter (fun a => a == "pre")).length then none
  else
    let code := collectNode selec
    let code1 := trimTrailingSpaces (strCollapseCRLF code)
    let fence :=
      if strContains code1 "`" then
        (if strContains code1 "``" then "```" else "``")
      else "`"
    some (fence ++ code1 ++ fence)

lemma strContains_backtick_of_double (t : String) (h : strContains t "``" = true) :
    strContains t "`" = true := by
  simp only [strContains, decide_eq_true_eq] at h ⊢
  exact List.IsInfix.trans (by decide) h

/-- C7: for a `code` element with no `pre` ancestor whose processed text
`t` (CRLF collapsed to LF) does not contain a triple backtick, the inline
rule wraps `t` in a run of `n` backticks (1 ≤ n ≤ 3) that does not occur
in `t`, while every shorter backtick run does occur in `t` — the shortest
non-colliding delimiter. -/
theorem codeRule_inline_fence_choice (anc : List String) (selec : HNode) (t : String)
    (hpre : (anc.filter (fun a => a == "pre")).length = 0)
    (ht : t = trimTrailingSpaces (strCollapseCRLF (collectNode selec)))
    (h3 : strContains t "```" = false) :
    ∃ n, codeRuleReplacement anc selec = some (backticks n ++ t ++ backticks n) ∧
      1 ≤ n ∧ n ≤ 3 ∧ strContains t (backticks n) = false ∧
      ∀ k, 1 ≤ k → k < n → strContains t (backticks k) = true := by
  have hback1 : backticks 1 = "`" := rfl
  have hback2 : backticks 2 = "``" := rfl
  have hback3 : backticks 3 = "```" := rfl
  cases h1 : strContains t "`" with
  | false =>
    refine ⟨1, ?_, le_refl 1, by omega, by rw [hback1]; exact h1, ?_⟩
    · rw [hback1]
      simp [codeRuleReplacement, hpre, ← ht, h1]
    · intro k hk1 hk2
      omega
  | true =>
    cases h2 : strContains t "``" with
    | false =>
      refine ⟨2, ?_, by omega, by omega, by rw [hback2]; exact h2, ?_⟩
      · rw [hback2]
        simp [codeRuleReplacement, hpre, ← ht, h1, h2]
      · intro k hk1 hk2
        have : k = 1 := by omega
        subst this
        rw [hback1]
        exact h1
    | true =>
      refine ⟨3, ?_, by omega, le_refl 3, by rw [hback3]; exact h3, ?_⟩
      · rw [hback3]
        simp [codeRuleReplacement, hpre, ← ht, h1, h2]
      · intro k hk1 hk2
        have : k = 1 ∨ k = 2 := by omega
        rcases this with rfl | rfl
        · rw [hback1]; exact h1
        · rw [hback2]; exact h2

/-- A concrete inline code element whose text contains one backtick. -/
def codeW : HNode := .elem "code" [] [.text "a`b"]

/-- Witness for C7: the concrete text with a single backtick is wrapped
in a double-backtick delimiter. -/
theorem codeRule_inline_fence_choice_witness :
    (∃ n, codeRuleReplacement ["p"] codeW = some (backticks n ++ "a`b" ++ backticks n) ∧
      1 ≤ n ∧ n ≤ 3 ∧ strContains "a`b" (backticks n) = false ∧
      ∀ k, 1 ≤ k → k < n → strContains "a`b" (backticks k) = true) ∧
    codeRuleReplacement ["p"] codeW = some "``a`b``" := by
  constructor
  · exact codeRule_inline_fence_choice ["p"] codeW "a`b" rfl rfl (by decide)
  · rfl

lemma collectList_append (l₁ l₂ : List HNode) :
    collectList (l₁ ++ l₂) = collectList l₁ ++ collectList l₂ := by
  induction l₁ with
  | nil => simp [collectList]
  | cons n rest ih => simp [collectList, ih, String.append_assoc]

lemma blockish_ne_br (name : String) (h : blockish name = true) : (name == "br") = false := by
  simp only [blockish, Bool.or_eq_true, beq_iff_eq] at h
  have hne : name ≠ "br" := by
    rintro rfl
    simp at h
  cases hb : name == "br" with
  | false => rfl
  | true => exact (hne (eq_of_beq hb)).elim

lemma collectNode_gutter (tag : String) (attrs : List (String × String))
    (cs : List HNode) (h1 : strToLower tag ≠ "") (h2 : hasGutterAttr attrs = true) :
    collectNode (.elem tag attrs cs) = "" := by
  simp [collectNode, h1, h2]

/-- C8: the code-text collection emits text-node content verbatim, skips
(without recursing into) any element whose class contains a
gutter/line-numbers marker — deleting such an element from a child list
leaves the collected text unchanged —, emits a newline for each `br`
(before its children), emits one trailing newline after the children of
each block-ish element, and otherwise concatenates the children's
collected text depth-first in document order. -/
theorem collect_code_text_extraction :
    (∀ d, collectNode (.text d) = d) ∧
    (∀ tag attrs cs, strToLower tag ≠ "" → hasGutterAttr attrs = true →
      collectNode (.elem tag attrs cs) = "") ∧
    (∀ l₁ l₂ tag attrs cs, strToLower tag ≠ "" → hasGutterAttr attrs = true →
      collectList (l₁ ++ .elem tag attrs cs :: l₂) = collectList (l₁ ++ l₂)) ∧
    (∀ tag attrs cs, strToLower tag = "br" → hasGutterAttr attrs = false →
      collectNode (.elem tag attrs cs) = "\n" ++ collectList cs) ∧
    (∀ tag attrs cs, blockish (strToLower tag) = true → hasGutterAttr attrs = false →
      collectNode (.elem tag attrs cs) = collectList cs ++ "\n") ∧
    (∀ n rest, collectList (n :: rest) = collectNode n ++ collectList rest) := by
  refine ⟨fun d => rfl, collectNode_gutter, ?_, ?_, ?_, fun n rest => rfl⟩
  · intro l₁ l₂ tag attrs cs h1 h2
    rw [show l₁ ++ HNode.elem tag attrs cs :: l₂ = l₁ ++ [HNode.elem tag attrs cs] ++ l₂ by simp,
      collectList_append, collectList_append, collectList_append]
    simp [collectList, collectNode_gutter tag attrs cs h1 h2]
  · intro tag attrs cs h1 h2
    simp [collectNode, h1, h2, blockish]
  · intro tag attrs cs h1 h2
    have hbr := blockish_ne_br _ h1
    simp [collectNode, h1, h2, hbr]

/-- Witness for C8 at concrete nodes: a line-numbers-classed element
contributes nothing; a text node is emitted verbatim. -/
theorem collect_code_text_extraction_witness :
    collectNode (.elem "DIV" [("class", "Line-Numbers x")] [.text "99"]) = "" ∧
    collectNode (.text "line1") = "line1" := by
  constructor
  · exact collect_code_text_extraction.2.1 "DIV" [("class", "Line-Numbers x")] [.text "99"]
      (by decide) (by decide)
  · exact collect_code_text_extraction.1 "line1"

end HtmlToMarkdown
